import Mathlib

/-!
Shallow embedding of `src/wasm-solver/src/lib.rs`: a Preconditioned Conjugate
Gradient (PCG) solver for sparse symmetric positive-definite systems in CSR
format, with a Jacobi (diagonal) preconditioner.

Modelling choices:

* Rust `f64` values are modelled by `FP`: an exact rational (`FP.num q`) or
  `FP.nan`.  Arithmetic on rationals is exact (idealised floating point);
  every operation with a `nan` operand yields `nan`, and every ordered
  comparison involving `nan` is `false`, matching IEEE-754 NaN propagation
  and comparison semantics, which is what the NaN-related behaviour of the
  code depends on.  Division by a zero rational is modelled as `nan`.
* The literals `1e-30` and tolerances are modelled by the exact rationals
  they denote (`1/10^30` etc.).
* `norm v = sqrt (dot v v)` is irrational in general, so the embedding
  tracks squared norms.  Every comparison the source makes against a norm
  (`rnorm < threshold` with `threshold = tol * max(bnorm, 1)`, where
  `rnorm`, `bnorm` are square roots of the nonnegative sums of squares
  `dot r r`, `dot b b`) is replaced by the equivalent comparison of squares:
  `sqrt a < t * max (sqrt c) 1  ↔  0 < t ∧ a < t^2 * max c 1` for
  `a, c ≥ 0`, and any NaN makes both sides false.  Likewise the `residual`
  field of the result is represented by its square `residualSq`.
* Rust slices become `List FP` (indices read with `getD`, default `0`);
  the in-place writes of the source (`x[j] += ...` over `j in 0..n`) become
  the length-preserving rebuild `updN`, which only touches indices `< n`.
-/

/-- Model of an `f64` value: an exact rational or NaN. -/
inductive FP where
  | num : ℚ → FP
  | nan : FP
deriving DecidableEq, Repr

namespace FP

/-- Addition; NaN-propagating. -/
def add : FP → FP → FP
  | num a, num b => num (a + b)
  | _, _ => nan

/-- Subtraction; NaN-propagating. -/
def sub : FP → FP → FP
  | num a, num b => num (a - b)
  | _, _ => nan

/-- Multiplication; NaN-propagating (NaN * 0 = NaN, as in IEEE). -/
def mul : FP → FP → FP
  | num a, num b => num (a * b)
  | _, _ => nan

/-- Division; NaN-propagating, and division by the rational 0 gives NaN. -/
def div : FP → FP → FP
  | num a, num b => if b = 0 then nan else num (a / b)
  | _, _ => nan

/-- Absolute value; NaN-propagating. -/
def fabs : FP → FP
  | num a => num |a|
  | nan => nan

/-- Strict order test, as a Bool: any comparison with NaN is false. -/
def flt : FP → FP → Bool
  | num a, num b => decide (a < b)
  | _, _ => false

end FP

instance : Zero FP := ⟨FP.num 0⟩

instance : Add FP := ⟨FP.add⟩

instance : Sub FP := ⟨FP.sub⟩

instance : Mul FP := ⟨FP.mul⟩

instance : Div FP := ⟨FP.div⟩

instance : AddCommMonoid FP where
  add_assoc a b c := by
    show FP.add (FP.add a b) c = FP.add a (FP.add b c)
    cases a <;> cases b <;> cases c <;> simp [FP.add, add_assoc]
  zero_add a := by
    show FP.add (FP.num 0) a = a
    cases a <;> simp [FP.add]
  add_zero a := by
    show FP.add a (FP.num 0) = a
    cases a <;> simp [FP.add]
  add_comm a b := by
    show FP.add a b = FP.add b a
    cases a <;> cases b <;> simp [FP.add, add_comm]
  nsmul := nsmulRec

/-- The literal `1e-30` of the source, modelled exactly. -/
def eps : ℚ := 1 / 10 ^ 30

/-- Embeds Rust `dot`: `a.iter().zip(b.iter()).map(|(x, y)| x * y).sum()`.
`zip` truncates to the shorter list and `sum` folds from `0.0` on the left. -/
def dot (a b : List FP) : FP :=
  (List.zipWith (fun x y => x * y) a b).foldl (fun s t => s + t) 0

/-- Embeds the inner loop of Rust `spmv` for one row: starting from
`sum = 0.0`, for `j` in `row_start..row_end` add
`values[j] * x[col_indices[j]]`. -/
def spmvRow (values : List FP) (colIndices : List ℕ) (x : List FP)
    (rowStart rowEnd : ℕ) : FP :=
  (List.range' rowStart (rowEnd - rowStart)).foldl
    (fun s j => s + values.getD j 0 * x.getD (colIndices.getD j 0) 0) 0

/-- Embeds Rust `spmv`: `y = A * x` for a CSR matrix, where `n = y.len()`;
row `i` of the output sums `values[j] * x[col_indices[j]]` over
`j` in `row_ptr[i]..row_ptr[i + 1]`. -/
def spmv (values : List FP) (colIndices rowPtr : List ℕ) (x : List FP)
    (n : ℕ) : List FP :=
  (List.range n).map
    (fun i => spmvRow values colIndices x (rowPtr.getD i 0) (rowPtr.getD (i + 1) 0))

/-- Embeds one row of Rust `extract_diagonal`: the entry starts at `1.0`;
scanning `j` from `row_start`, the first `j` with `col_indices[j] == i`
decides (the source breaks out of the scan): the entry becomes `values[j]`
if `values[j].abs() > 1e-30`, else `1.0`. -/
def extractDiagRow (values : List FP) (colIndices : List ℕ)
    (i rowStart rowEnd : ℕ) : FP :=
  match (List.range' rowStart (rowEnd - rowStart)).find?
      (fun j => colIndices.getD j 0 == i) with
  | some j =>
      if FP.flt (FP.num eps) (FP.fabs (values.getD j 0))
      then values.getD j 0 else FP.num 1
  | none => FP.num 1

/-- Embeds Rust `extract_diagonal`: diagonal of the CSR matrix for the
Jacobi preconditioner, with fallback `1.0`. -/
def extract_diagonal (values : List FP) (colIndices rowPtr : List ℕ)
    (n : ℕ) : List FP :=
  (List.range n).map
    (fun i => extractDiagRow values colIndices i (rowPtr.getD i 0) (rowPtr.getD (i + 1) 0))

/-- Embeds Rust `apply_jacobi`: `z[i] = r[i] / diag[i]` for `i` in
`0..r.len()`. -/
def apply_jacobi (diag r : List FP) : List FP :=
  (List.range r.length).map (fun i => r.getD i 0 / diag.getD i 0)

/-- Embeds an in-place loop `for j in 0..n { x[j] = f(j, x[j]) }` on a
mutable slice: indices `< n` are rewritten through `f`, indices `≥ n` and
the length are untouched. -/
def updN (x : List FP) (n : ℕ) (f : ℕ → FP → FP) : List FP :=
  (List.range x.length).map
    (fun j => if j < n then f j (x.getD j 0) else x.getD j 0)

/-- Embeds the initial residual computation of `solve_pcg`:
`spmv(..., &x, &mut r)` followed by `r[i] = b[i] - r[i]` for `i` in `0..n`. -/
def initResidual (values : List FP) (colIndices rowPtr : List ℕ)
    (b x : List FP) (n : ℕ) : List FP :=
  let ax := spmv values colIndices rowPtr x n
  (List.range n).map (fun i => b.getD i 0 - ax.getD i 0)

/-- Embeds the convergence test `rnorm < threshold` of the source, where
`rnorm = sqrt rnormSq`, `threshold = tol * max (sqrt bnormSq) 1`, expressed
on the squares (`rnormSq = dot r r`, `bnormSq = dot b b`, both sums of
squares, hence nonnegative when not NaN): for nonnegative rationals the two
tests agree, and any NaN among `rnormSq`, `tol`, `bnormSq` makes the IEEE
comparison false, as here. -/
def convTest (rnormSq tol bnormSq : FP) : Bool :=
  match rnormSq, tol, bnormSq with
  | FP.num rs, FP.num t, FP.num bs => decide (0 < t ∧ rs < t ^ 2 * max bs 1)
  | _, _, _ => false

/-- The mutable locals of the PCG loop in `solve_pcg`: solution `x`,
residual `r`, preconditioned residual `z`, search direction `p`, the
scalar `rz = dot r z`, and the squared residual norm `rnormSq`
(the source's `rnorm` is its square root). -/
structure PcgState where
  x : List FP
  r : List FP
  z : List FP
  p : List FP
  rz : FP
  rnormSq : FP
deriving DecidableEq, Repr

/-- Embeds the updating statements of one non-breakdown PCG loop body
(steps c through h of the iteration): `alpha = rz / pap`,
`x += alpha * p`, `r -= alpha * ap`, `rnorm` recomputed, `z = M⁻¹ r`,
`rz` updated, `beta = rz_new / rz_old`, `p = z + beta * p`.  When the
body breaks at the convergence check, the fields computed after the check
(`z`, `rz`, `p`) are simply unused, so computing them here is harmless:
only `x` and `rnormSq` are returned in that case. -/
def pcgStep (values : List FP) (colIndices rowPtr : List ℕ)
    (diag : List FP) (n : ℕ) (st : PcgState) : PcgState :=
  let ap := spmv values colIndices rowPtr st.p n
  let pap := dot st.p ap
  let alpha := st.rz / pap
  let x := updN st.x n (fun j xj => xj + alpha * st.p.getD j 0)
  let r := updN st.r n (fun j rj => rj - alpha * ap.getD j 0)
  let rnormSq := dot r r
  let z := apply_jacobi diag r
  let rzNew := dot r z
  let beta := rzNew / st.rz
  let p := updN st.p n (fun j pj => z.getD j 0 + beta * pj)
  ⟨x, r, z, p, rzNew, rnormSq⟩

/-- Embeds the `for i in 0..max_iter` loop of `solve_pcg`.  `i` is the
current loop index (the source's `iter` variable equals `i` on entry, and
is set to `i + 1` at the top of the body); `fuel` is the number of loop
indices still available (`max_iter - i`).  Returns the triple the source
returns: solution `x`, `iter`, and the squared residual norm. -/
def pcgLoop (values : List FP) (colIndices rowPtr : List ℕ)
    (diag : List FP) (tol bnormSq : FP) (n : ℕ) :
    PcgState → ℕ → ℕ → List FP × ℕ × FP
  | st, i, 0 => (st.x, i, st.rnormSq)
  | st, i, fuel + 1 =>
      let ap := spmv values colIndices rowPtr st.p n
      let pap := dot st.p ap
      if FP.flt (FP.fabs pap) (FP.num eps) then
        (st.x, i + 1, st.rnormSq)
      else
        let st2 := pcgStep values colIndices rowPtr diag n st
        if convTest st2.rnormSq tol bnormSq then
          (st2.x, i + 1, st2.rnormSq)
        else
          pcgLoop values colIndices rowPtr diag tol bnormSq n st2 (i + 1) fuel

/-- Embeds the Rust `SolveResult`, with the `residual` field represented by
its square (`residualSq = residual ^ 2`; the source's `residual` is the
square root of this). -/
structure SolveResult where
  solution : List FP
  iterations : ℕ
  residualSq : FP
deriving DecidableEq, Repr

/-- Embeds Rust `solve_pcg`.  `n = b.len()`; `x` starts as a copy of `x0`;
the early exit returns before any loop body runs. -/
def solve_pcg (values : List FP) (colIndices rowPtr : List ℕ)
    (b x0 : List FP) (tol : FP) (maxIter : ℕ) : SolveResult :=
  let n := b.length
  let x := x0
  let diag := extract_diagonal values colIndices rowPtr n
  let r := initResidual values colIndices rowPtr b x n
  let bnormSq := dot b b
  let rnormSq := dot r r
  if convTest rnormSq tol bnormSq then
    { solution := x, iterations := 0, residualSq := rnormSq }
  else
    let z := apply_jacobi diag r
    let p := z
    let rz := dot r z
    let out := pcgLoop values colIndices rowPtr diag tol bnormSq n
      ⟨x, r, z, p, rz, rnormSq⟩ 0 maxIter
    { solution := out.1, iterations := out.2.1, residualSq := out.2.2 }

/-- The caller-supplied arrays of a `solve_pcg` call, which the source
takes only by shared borrow (`&[f64]` / `&[u32]`); the solution vector is
initialised from a copy of `x0` (`x0.to_vec()`). -/
structure CallerArrays where
  values : List FP
  colIndices : List ℕ
  rowPtr : List ℕ
  b : List FP
  x0 : List FP
deriving DecidableEq, Repr

/-- A `solve_pcg` call viewed as a transformer of the caller-visible
arrays: the call reads them and produces the result; the returned
`CallerArrays` component is the caller's arrays after the call. -/
def solve_pcg_call (a : CallerArrays) (tol : FP) (maxIter : ℕ) :
    CallerArrays × SolveResult :=
  (a, solve_pcg a.values a.colIndices a.rowPtr a.b a.x0 tol maxIter)

/-- Embeds Rust `wasm_test` up to the final sum: the fixed 2×2 solve
`[[4, 1], [1, 3]] * x = [1, 2]` from `x0 = 0` with `tol = 1e-10`,
`max_iter = 100`. -/
def wasm_test_result : SolveResult :=
  solve_pcg [FP.num 4, FP.num 1, FP.num 1, FP.num 3] [0, 1, 0, 1]
    [0, 2, 4] [FP.num 1, FP.num 2] [FP.num 0, FP.num 0]
    (FP.num (1 / 10 ^ 10)) 100

/-- Embeds Rust `wasm_test`: the sum of the solution components
(`result.solution.iter().sum()`, a left fold from `0.0`). -/
def wasm_test : FP :=
  wasm_test_result.solution.foldl (fun s t => s + t) 0

/-! Helper lemmas on `FP` arithmetic. -/

theorem FP.nan_add (a : FP) : FP.nan + a = FP.nan := by cases a <;> rfl

theorem FP.add_nan (a : FP) : a + FP.nan = FP.nan := by cases a <;> rfl

theorem FP.nan_mul (a : FP) : FP.nan * a = FP.nan := by cases a <;> rfl

theorem FP.mul_nan (a : FP) : a * FP.nan = FP.nan := by cases a <;> rfl

theorem FP.sub_nan (a : FP) : a - FP.nan = FP.nan := by cases a <;> rfl

theorem FP.nan_div (a : FP) : FP.nan / a = FP.nan := by cases a <;> rfl

theorem FP.div_nan (a : FP) : a / FP.nan = FP.nan := by cases a <;> rfl

theorem FP.flt_nan_right (a : FP) : FP.flt a FP.nan = false := by
  cases a <;> rfl

theorem FP.flt_nan_left (a : FP) : FP.flt FP.nan a = false := by
  cases a <;> rfl

theorem FP.fabs_nan : FP.fabs FP.nan = FP.nan := rfl

theorem convTest_nan_left (tol bnormSq : FP) :
    convTest FP.nan tol bnormSq = false := by
  cases tol <;> cases bnormSq <;> rfl

/-! Helper lemmas on list indexing and the fold/sum forms the embedding
uses. -/

theorem getD_ge_length {α : Type} (l : List α) (d : α) (i : ℕ)
    (h : l.length ≤ i) : l.getD i d = d := by
  rw [List.getD_eq_getElem?_getD, List.getElem?_eq_none h]
  rfl

theorem getD_map_range {α : Type} (g : ℕ → α) (d : α) (n i : ℕ) (hi : i < n) :
    ((List.range n).map g).getD i d = g i := by
  have hlen : i < ((List.range n).map g).length := by simpa using hi
  rw [List.getD_eq_getElem _ _ hlen, List.getElem_map, List.getElem_range]

theorem length_map_range {α : Type} (g : ℕ → α) (n : ℕ) :
    ((List.range n).map g).length = n := by simp

theorem spmv_length (values : List FP) (colIndices rowPtr : List ℕ)
    (x : List FP) (n : ℕ) : (spmv values colIndices rowPtr x n).length = n := by
  simp [spmv]

theorem initResidual_length (values : List FP) (colIndices rowPtr : List ℕ)
    (b x : List FP) (n : ℕ) :
    (initResidual values colIndices rowPtr b x n).length = n := by
  simp [initResidual]

theorem apply_jacobi_length (diag r : List FP) :
    (apply_jacobi diag r).length = r.length := by simp [apply_jacobi]

theorem updN_length (x : List FP) (n : ℕ) (f : ℕ → FP → FP) :
    (updN x n f).length = x.length := by simp [updN]

theorem updN_getD (x : List FP) (n : ℕ) (f : ℕ → FP → FP) (i : ℕ)
    (hi : i < x.length) :
    (updN x n f).getD i 0 = if i < n then f i (x.getD i 0) else x.getD i 0 := by
  unfold updN
  rw [getD_map_range _ _ _ _ hi]

theorem updN_getD_ge (x : List FP) (n : ℕ) (f : ℕ → FP → FP) (i : ℕ)
    (h : n ≤ i) : (updN x n f).getD i 0 = x.getD i 0 := by
  rcases lt_or_le i x.length with h1 | h1
  · rw [updN_getD _ _ _ _ h1, if_neg (by omega)]
  · rw [getD_ge_length _ _ _ (by simpa [updN_length] using h1),
      getD_ge_length _ _ _ h1]

theorem foldl_add_eq (f : ℕ → FP) (l : List ℕ) (s : FP) :
    l.foldl (fun acc j => acc + f j) s = s + (l.map f).sum := by
  induction l generalizing s with
  | nil => simp
  | cons a t ih => simp [List.foldl_cons, ih, add_assoc]

theorem sum_map_range' (f : ℕ → FP) (k : ℕ) : ∀ a : ℕ,
    ((List.range' a k).map f).sum = ∑ j in Finset.Ico a (a + k), f j := by
  induction k with
  | zero => intro a; simp
  | succ k ih =>
      intro a
      rw [List.range'_succ, List.map_cons, List.sum_cons, ih (a + 1),
        show a + (k + 1) = (a + 1) + k from by omega,
        Finset.sum_eq_sum_Ico_succ_bot (show a < (a + 1) + k from by omega) f]

theorem foldl_add_nan_acc (l : List FP) :
    l.foldl (fun s t => s + t) FP.nan = FP.nan := by
  induction l with
  | nil => rfl
  | cons a t ih => simp [List.foldl_cons, FP.nan_add, ih]

theorem foldl_add_of_nan_mem (l : List FP) (s : FP) (h : FP.nan ∈ l) :
    l.foldl (fun s t => s + t) s = FP.nan := by
  induction l generalizing s with
  | nil => cases h
  | cons a t ih =>
      rcases List.mem_cons.mp h with h1 | h1
      · rw [← h1, List.foldl_cons, FP.add_nan, foldl_add_nan_acc]
      · rw [List.foldl_cons]
        exact ih _ h1

theorem dot_nan_of_entry (a b : List FP) (i : ℕ) (hia : i < a.length)
    (hib : i < b.length) (ha : a.getD i 0 = FP.nan) : dot a b = FP.nan := by
  apply foldl_add_of_nan_mem
  have hz : i < (List.zipWith (fun x y => x * y) a b).length := by
    simp [List.length_zipWith]
    omega
  refine List.mem_iff_getElem.mpr ⟨i, hz, ?_⟩
  rw [List.getElem_zipWith]
  rw [List.getD_eq_getElem a 0 hia] at ha
  rw [ha, FP.nan_mul]

/-! Helper lemmas on the PCG loop iteration count. -/

theorem pcgLoop_iter_le (values : List FP) (colIndices rowPtr : List ℕ)
    (diag : List FP) (tol bnormSq : FP) (n : ℕ) :
    ∀ (fuel : ℕ) (st : PcgState) (i : ℕ),
      (pcgLoop values colIndices rowPtr diag tol bnormSq n st i fuel).2.1 ≤
        i + fuel := by
  intro fuel
  induction fuel with
  | zero => intro st i; simp [pcgLoop]
  | succ f ih =>
      intro st i
      simp only [pcgLoop]
      split_ifs
      · simp
      · simp
      · exact le_trans (ih _ (i + 1)) (by omega)

theorem pcgLoop_iter_ge (values : List FP) (colIndices rowPtr : List ℕ)
    (diag : List FP) (tol bnormSq : FP) (n : ℕ) :
    ∀ (fuel : ℕ) (st : PcgState) (i : ℕ),
      i ≤ (pcgLoop values colIndices rowPtr diag tol bnormSq n st i fuel).2.1 := by
  intro fuel
  induction fuel with
  | zero => intro st i; simp [pcgLoop]
  | succ f ih =>
      intro st i
      simp only [pcgLoop]
      split_ifs
      · simp
      · simp
      · exact le_trans (by omega) (ih _ (i + 1))

theorem pcgLoop_iter_pos (values : List FP) (colIndices rowPtr : List ℕ)
    (diag : List FP) (tol bnormSq : FP) (n : ℕ) (st : PcgState) (i f : ℕ) :
    i + 1 ≤ (pcgLoop values colIndices rowPtr diag tol bnormSq n st i (f + 1)).2.1 := by
  simp only [pcgLoop]
  split_ifs
  · simp
  · simp
  · exact pcgLoop_iter_ge values colIndices rowPtr diag tol bnormSq n f _ (i + 1)

/-! Claim theorems. -/

/-- C1 counterexample: on the 1×1 system `A = [[0]]`, `b = [1]`, `x0 = [0]`,
`tol = 1/10`, `max_iter = 10`, the breakdown test `|p·(A·p)| < 1e-30` fires
at loop index `i = 0` (first conjunct: the loop is entered with search
direction `p = [1]` and `p·(A·p) = 0`), yet the reported iteration count is
1, not 0: the source sets `iter = i + 1` at the top of the loop body before
the breakdown check, so the broken-down iteration IS counted, contradicting
the claim that it does not count toward the reported iteration count.  The
solution and squared residual from before the loop body are returned, as
the claim says. -/
theorem breakdown_iteration_is_counted :
    FP.flt (FP.fabs (dot [FP.num 1]
        (spmv [FP.num 0] [0] [0, 1] [FP.num 1] 1))) (FP.num eps) = true ∧
    pcgLoop [FP.num 0] [0] [0, 1] [FP.num 1] (FP.num (1 / 10)) (FP.num 1) 1
        ⟨[FP.num 0], [FP.num 1], [FP.num 1], [FP.num 1], FP.num 1, FP.num 1⟩ 0 10 =
      ([FP.num 0], 1, FP.num 1) ∧
    solve_pcg [FP.num 0] [0] [0, 1] [FP.num 1] [FP.num 0] (FP.num (1 / 10)) 10 =
      { solution := [FP.num 0], iterations := 1, residualSq := FP.num 1 } :=
  ⟨by with_unfolding_all decide, by with_unfolding_all decide, by with_unfolding_all decide⟩

/-- C1 amended: whenever the loop body at index `i` computes
`|p·(A·p)| < 1e-30`, the loop terminates immediately and returns the
solution `x` and squared residual norm from before that loop body began,
but the broken-down iteration IS counted: the reported count is `i + 1`,
not `i`. -/
theorem pcg_breakdown_stops (values : List FP) (colIndices rowPtr : List ℕ)
    (diag : List FP) (tol bnormSq : FP) (n : ℕ) (st : PcgState) (i fuel : ℕ)
    (h : FP.flt (FP.fabs (dot st.p (spmv values colIndices rowPtr st.p n)))
      (FP.num eps) = true) :
    pcgLoop values colIndices rowPtr diag tol bnormSq n st i (fuel + 1) =
      (st.x, i + 1, st.rnormSq) := by
  simp only [pcgLoop]
  rw [if_pos h]

/-- Witness for `pcg_breakdown_stops` at a concrete breakdown state. -/
theorem pcg_breakdown_stops_witness :
    FP.flt (FP.fabs (dot [FP.num 1]
        (spmv [FP.num 0] [0] [0, 1] [FP.num 1] 1))) (FP.num eps) = true ∧
    pcgLoop [FP.num 0] [0] [0, 1] [FP.num 1] (FP.num (1 / 10)) (FP.num 1) 1
        ⟨[FP.num 0], [FP.num 1], [FP.num 1], [FP.num 1], FP.num 1, FP.num 1⟩ 2 4 =
      ([FP.num 0], 3, FP.num 1) :=
  ⟨by with_unfolding_all decide,
    pcg_breakdown_stops [FP.num 0] [0] [0, 1] [FP.num 1] (FP.num (1 / 10))
      (FP.num 1) 1
      ⟨[FP.num 0], [FP.num 1], [FP.num 1], [FP.num 1], FP.num 1, FP.num 1⟩
      2 3 (by with_unfolding_all decide)⟩

/-- C2 counterexample: with `max_iter = 0` and an initial residual that
does NOT satisfy the convergence threshold (first conjunct), `solve_pcg`
still returns `iterations = 0` (second conjunct): an iteration count of 0
does not imply the early-exit case, contradicting the claim. -/
theorem zero_iterations_without_early_exit :
    convTest (dot (initResidual [FP.num 1] [0] [0, 1] [FP.num 1] [FP.num 0] 1)
        (initResidual [FP.num 1] [0] [0, 1] [FP.num 1] [FP.num 0] 1))
      (FP.num (1 / 10)) (dot [FP.num 1] [FP.num 1]) = false ∧
    solve_pcg [FP.num 1] [0] [0, 1] [FP.num 1] [FP.num 0] (FP.num (1 / 10)) 0 =
      { solution := [FP.num 0], iterations := 0, residualSq := FP.num 1 } :=
  ⟨by with_unfolding_all decide, by with_unfolding_all decide⟩

/-- C2 amended: the returned iteration count never exceeds `max_iter`, and
it equals 0 only when the initial residual already satisfies the
convergence threshold (early exit) OR `max_iter = 0`. -/
theorem solve_pcg_iteration_bound (values : List FP) (colIndices rowPtr : List ℕ)
    (b x0 : List FP) (tol : FP) (maxIter : ℕ) :
    (solve_pcg values colIndices rowPtr b x0 tol maxIter).iterations ≤ maxIter ∧
    ((solve_pcg values colIndices rowPtr b x0 tol maxIter).iterations = 0 →
      convTest (dot (initResidual values colIndices rowPtr b x0 b.length)
          (initResidual values colIndices rowPtr b x0 b.length))
        tol (dot b b) = true ∨ maxIter = 0) := by
  set n := b.length with hn
  set diag := extract_diagonal values colIndices rowPtr n with hdiag
  set r := initResidual values colIndices rowPtr b x0 n with hr
  set bn := dot b b with hbn
  set rn := dot r r with hrn
  set z := apply_jacobi diag r with hz
  have hs : solve_pcg values colIndices rowPtr b x0 tol maxIter =
      if convTest rn tol bn then
        { solution := x0, iterations := 0, residualSq := rn }
      else
        { solution :=
            (pcgLoop values colIndices rowPtr diag tol bn n
              ⟨x0, r, z, z, dot r z, rn⟩ 0 maxIter).1,
          iterations :=
            (pcgLoop values colIndices rowPtr diag tol bn n
              ⟨x0, r, z, z, dot r z, rn⟩ 0 maxIter).2.1,
          residualSq :=
            (pcgLoop values colIndices rowPtr diag tol bn n
              ⟨x0, r, z, z, dot r z, rn⟩ 0 maxIter).2.2 } := rfl
  rw [hs]
  by_cases h : convTest rn tol bn = true
  · simp [h]
  · simp only [h, if_false, Bool.false_eq_true]
    constructor
    · simpa using
        pcgLoop_iter_le values colIndices rowPtr diag tol bn n maxIter
          ⟨x0, r, z, z, dot r z, rn⟩ 0
    · intro h0
      rcases maxIter with _ | m
      · exact Or.inr rfl
      · have := pcgLoop_iter_pos values colIndices rowPtr diag tol bn n
          ⟨x0, r, z, z, dot r z, rn⟩ 0 m
        omega

/-- Witness for `solve_pcg_iteration_bound` at a concrete input with
`max_iter = 0` and no early exit. -/
theorem solve_pcg_iteration_bound_witness :
    (solve_pcg [FP.num 1] [0] [0, 1] [FP.num 1] [FP.num 0]
      (FP.num (1 / 10)) 0).iterations ≤ 0 ∧
    (convTest (dot (initResidual [FP.num 1] [0] [0, 1] [FP.num 1] [FP.num 0] 1)
        (initResidual [FP.num 1] [0] [0, 1] [FP.num 1] [FP.num 0] 1))
      (FP.num (1 / 10)) (dot [FP.num 1] [FP.num 1]) = true ∨ (0 : ℕ) = 0) :=
  ⟨(solve_pcg_iteration_bound [FP.num 1] [0] [0, 1] [FP.num 1] [FP.num 0]
      (FP.num (1 / 10)) 0).1,
   (solve_pcg_iteration_bound [FP.num 1] [0] [0, 1] [FP.num 1] [FP.num 0]
      (FP.num (1 / 10)) 0).2 (by with_unfolding_all decide)⟩

/-- C3: if the initial residual `r = b - A·x0` already satisfies the
convergence test `‖r‖ < tol * max ‖b‖ 1` (expressed on squares by
`convTest`), then `solve_pcg` returns immediately with `iterations = 0`,
squared residual exactly `dot r r` (i.e. `residual = ‖r‖`), and a solution
exactly equal, element for element, to the initial guess `x0`; no loop
iteration is performed. -/
theorem solve_pcg_early_exit (values : List FP) (colIndices rowPtr : List ℕ)
    (b x0 : List FP) (tol : FP) (maxIter : ℕ)
    (h : convTest (dot (initResidual values colIndices rowPtr b x0 b.length)
        (initResidual values colIndices rowPtr b x0 b.length))
      tol (dot b b) = true) :
    solve_pcg values colIndices rowPtr b x0 tol maxIter =
      { solution := x0, iterations := 0,
        residualSq := dot (initResidual values colIndices rowPtr b x0 b.length)
          (initResidual values colIndices rowPtr b x0 b.length) } := by
  unfold solve_pcg
  simp [h]

/-- Witness for `solve_pcg_early_exit`: `A = [[1]]`, `b = [1]`, `x0 = [1]`
has zero initial residual. -/
theorem solve_pcg_early_exit_witness :
    convTest (dot (initResidual [FP.num 1] [0] [0, 1] [FP.num 1] [FP.num 1] 1)
        (initResidual [FP.num 1] [0] [0, 1] [FP.num 1] [FP.num 1] 1))
      (FP.num (1 / 2)) (dot [FP.num 1] [FP.num 1]) = true ∧
    solve_pcg [FP.num 1] [0] [0, 1] [FP.num 1] [FP.num 1] (FP.num (1 / 2)) 7 =
      { solution := [FP.num 1], iterations := 0, residualSq := FP.num 0 } :=
  ⟨by with_unfolding_all decide,
    (solve_pcg_early_exit [FP.num 1] [0] [0, 1] [FP.num 1] [FP.num 1]
      (FP.num (1 / 2)) 7 (by with_unfolding_all decide)).trans (by with_unfolding_all decide)⟩

/-- C6: a `solve_pcg` call leaves every caller-supplied array unchanged —
the source takes `values`, `col_indices`, `row_ptr`, `b`, `x0` by shared
borrow only and works on a copy of `x0` (`x0.to_vec()`), so the call, seen
as a transformer of the caller-visible arrays, is the identity on them and
its result is a pure function of their values. -/
theorem solve_pcg_preserves_inputs (a : CallerArrays) (tol : FP) (maxIter : ℕ) :
    (solve_pcg_call a tol maxIter).1.values = a.values ∧
    (solve_pcg_call a tol maxIter).1.colIndices = a.colIndices ∧
    (solve_pcg_call a tol maxIter).1.rowPtr = a.rowPtr ∧
    (solve_pcg_call a tol maxIter).1.b = a.b ∧
    (solve_pcg_call a tol maxIter).1.x0 = a.x0 ∧
    (solve_pcg_call a tol maxIter).2 =
      solve_pcg a.values a.colIndices a.rowPtr a.b a.x0 tol maxIter :=
  ⟨rfl, rfl, rfl, rfl, rfl, rfl⟩

/-- C7: `wasm_test` solves the fixed system `[[4, 1], [1, 3]]·x = [1, 2]`
and returns the sum of the solution components; in exact arithmetic the
solution is exactly `[1/11, 7/11]` (so in particular each component is
within `1e-8` of it) and the returned sum is `8/11`, within `1e-8` of
`0.727272...`. -/
theorem wasm_test_value :
    ∃ q0 q1 : ℚ, wasm_test_result.solution = [FP.num q0, FP.num q1] ∧
      |q0 - 1 / 11| < 1 / 10 ^ 8 ∧ |q1 - 7 / 11| < 1 / 10 ^ 8 ∧
      wasm_test = FP.num (q0 + q1) ∧ |q0 + q1 - 8 / 11| < 1 / 10 ^ 8 :=
  ⟨1 / 11, 7 / 11, by with_unfolding_all decide, by norm_num, by norm_num, by with_unfolding_all decide, by norm_num⟩

/-- C4: for a CSR matrix whose `row_ptr` is non-decreasing with
`row_ptr[0] = 0` and `row_ptr[n] = len values = len col_indices`, whose
column indices are all `< n`, and an input vector `x` of length `n`,
`spmv` writes into each output slot `i` exactly the sum of
`values[j] * x[col_indices[j]]` over `j ∈ [row_ptr[i], row_ptr[i+1])`. -/
theorem spmv_rows (values : List FP) (colIndices rowPtr : List ℕ)
    (x : List FP) (n : ℕ)
    (hmono : ∀ i, i < n → rowPtr.getD i 0 ≤ rowPtr.getD (i + 1) 0)
    (h0 : rowPtr.getD 0 0 = 0)
    (hlen : rowPtr.length = n + 1)
    (hend : rowPtr.getD n 0 = values.length)
    (hcv : colIndices.length = values.length)
    (hcol : ∀ j, j < colIndices.length → colIndices.getD j 0 < n)
    (hx : x.length = n)
    (i : ℕ) (hi : i < n) :
    (spmv values colIndices rowPtr x n).getD i 0 =
      ∑ j in Finset.Ico (rowPtr.getD i 0) (rowPtr.getD (i + 1) 0),
        values.getD j 0 * x.getD (colIndices.getD j 0) 0 := by
  unfold spmv
  rw [getD_map_range _ _ _ _ hi]
  unfold spmvRow
  rw [foldl_add_eq (fun j => values.getD j 0 * x.getD (colIndices.getD j 0) 0),
    sum_map_range', zero_add]
  have hle := hmono i hi
  rw [show rowPtr.getD i 0 + (rowPtr.getD (i + 1) 0 - rowPtr.getD i 0) =
    rowPtr.getD (i + 1) 0 from by omega]

/-- Witness for `spmv_rows` on the fixed 2×2 matrix, row 0, `x = [1, 1]`. -/
theorem spmv_rows_witness :
    (spmv [FP.num 4, FP.num 1, FP.num 1, FP.num 3] [0, 1, 0, 1] [0, 2, 4]
        [FP.num 1, FP.num 1] 2).getD 0 0 =
      ∑ j in Finset.Ico (([0, 2, 4] : List ℕ).getD 0 0)
          (([0, 2, 4] : List ℕ).getD 1 0),
        ([FP.num 4, FP.num 1, FP.num 1, FP.num 3] : List FP).getD j 0 *
          ([FP.num 1, FP.num 1] : List FP).getD
            (([0, 1, 0, 1] : List ℕ).getD j 0) 0 :=
  spmv_rows [FP.num 4, FP.num 1, FP.num 1, FP.num 3] [0, 1, 0, 1] [0, 2, 4]
    [FP.num 1, FP.num 1] 2 (by decide) (by decide) (by decide) (by decide)
    (by decide) (by decide) (by decide) 0 (by decide)

/-- Unfolding equation for `extractDiagRow` when the scan finds no entry
with column index `i`. -/
theorem extractDiagRow_eq_none (values : List FP) (colIndices : List ℕ)
    (i rowStart rowEnd : ℕ)
    (h : (List.range' rowStart (rowEnd - rowStart)).find?
      (fun j => colIndices.getD j 0 == i) = none) :
    extractDiagRow values colIndices i rowStart rowEnd = FP.num 1 := by
  unfold extractDiagRow
  rw [h]

/-- Unfolding equation for `extractDiagRow` when the scan first finds the
entry at position `j`. -/
theorem extractDiagRow_eq_some (values : List FP) (colIndices : List ℕ)
    (i rowStart rowEnd j : ℕ)
    (h : (List.range' rowStart (rowEnd - rowStart)).find?
      (fun j => colIndices.getD j 0 == i) = some j) :
    extractDiagRow values colIndices i rowStart rowEnd =
      if FP.flt (FP.num eps) (FP.fabs (values.getD j 0))
      then values.getD j 0 else FP.num 1 := by
  unfold extractDiagRow
  rw [h]

/-- C5: for a row `i < n`, the diagonal entry produced by
`extract_diagonal` is `1.0` when no entry of row `i` has column index `i`;
and when row `i` has exactly one entry `j` with column index `i`, the
diagonal entry is `values[j]` if `|values[j]| > 1e-30` and `1.0` otherwise
(entry too small). -/
theorem extract_diagonal_entries (values : List FP) (colIndices rowPtr : List ℕ)
    (n i : ℕ) (hi : i < n) :
    ((∀ j, rowPtr.getD i 0 ≤ j → j < rowPtr.getD (i + 1) 0 →
        colIndices.getD j 0 ≠ i) →
      (extract_diagonal values colIndices rowPtr n).getD i 0 = FP.num 1) ∧
    (∀ j, rowPtr.getD i 0 ≤ j → j < rowPtr.getD (i + 1) 0 →
      colIndices.getD j 0 = i →
      (∀ k, rowPtr.getD i 0 ≤ k → k < rowPtr.getD (i + 1) 0 →
        colIndices.getD k 0 = i → k = j) →
      (extract_diagonal values colIndices rowPtr n).getD i 0 =
        if FP.flt (FP.num eps) (FP.fabs (values.getD j 0))
        then values.getD j 0 else FP.num 1) := by
  have hd : (extract_diagonal values colIndices rowPtr n).getD i 0 =
      extractDiagRow values colIndices i (rowPtr.getD i 0)
        (rowPtr.getD (i + 1) 0) := by
    unfold extract_diagonal
    exact getD_map_range _ _ _ _ hi
  rw [hd]
  constructor
  · intro habs
    apply extractDiagRow_eq_none
    rw [List.find?_eq_none]
    intro j hj
    have hmem := List.mem_range'_1.mp hj
    simp only [beq_iff_eq]
    exact habs j hmem.1 (by omega)
  · intro j hj1 hj2 hjc huniq
    have hmem : j ∈ List.range' (rowPtr.getD i 0)
        (rowPtr.getD (i + 1) 0 - rowPtr.getD i 0) :=
      List.mem_range'_1.mpr ⟨hj1, by omega⟩
    have hsome : ((List.range' (rowPtr.getD i 0)
        (rowPtr.getD (i + 1) 0 - rowPtr.getD i 0)).find?
        (fun j => colIndices.getD j 0 == i)).isSome := by
      rw [List.find?_isSome]
      refine ⟨j, hmem, ?_⟩
      simp only [beq_iff_eq]
      exact hjc
    obtain ⟨k, hk⟩ := Option.isSome_iff_exists.mp hsome
    have hkp := List.find?_some hk
    simp only [beq_iff_eq] at hkp
    have hkmem := List.mem_range'_1.mp (List.mem_of_find?_eq_some hk)
    have hkj : k = j := huniq k hkmem.1 (by omega) hkp
    rw [extractDiagRow_eq_some values colIndices i _ _ k hk, hkj]

/-- Witness for `extract_diagonal_entries`: on the fixed 2×2 matrix, row 0
has the unique diagonal entry `4` at position `j = 0`, and `|4| > 1e-30`,
so the extracted diagonal entry is `4`. -/
theorem extract_diagonal_entries_witness :
    (extract_diagonal [FP.num 4, FP.num 1, FP.num 1, FP.num 3] [0, 1, 0, 1]
      [0, 2, 4] 2).getD 0 0 =
      if FP.flt (FP.num eps)
          (FP.fabs (([FP.num 4, FP.num 1, FP.num 1, FP.num 3] : List FP).getD 0 0))
      then ([FP.num 4, FP.num 1, FP.num 1, FP.num 3] : List FP).getD 0 0
      else FP.num 1 :=
  (extract_diagonal_entries [FP.num 4, FP.num 1, FP.num 1, FP.num 3]
    [0, 1, 0, 1] [0, 2, 4] 2 0 (by decide)).2 0 (by decide) (by decide)
    (by decide) (by decide)

/-- C9: every entry of the vector produced by `extract_diagonal` is either
exactly `1.0` or a matrix value of absolute value strictly greater than
`1e-30`; in particular no entry is the rational zero, so every division
`z[i] = r[i] / diag[i]` performed by `apply_jacobi` on such a diagonal has
a nonzero divisor (the third conjunct exhibits the divisor of entry `i` of
`apply_jacobi` as exactly that diagonal entry). -/
theorem extract_diagonal_nonzero (values : List FP) (colIndices rowPtr : List ℕ)
    (n i : ℕ) (hi : i < n) :
    ((extract_diagonal values colIndices rowPtr n).getD i 0 = FP.num 1 ∨
      ∃ q : ℚ, (extract_diagonal values colIndices rowPtr n).getD i 0 =
        FP.num q ∧ eps < |q|) ∧
    (extract_diagonal values colIndices rowPtr n).getD i 0 ≠ FP.num 0 ∧
    ∀ r : List FP, i < r.length →
      (apply_jacobi (extract_diagonal values colIndices rowPtr n) r).getD i 0 =
        FP.div (r.getD i 0)
          ((extract_diagonal values colIndices rowPtr n).getD i 0) := by
  have hd : (extract_diagonal values colIndices rowPtr n).getD i 0 =
      extractDiagRow values colIndices i (rowPtr.getD i 0)
        (rowPtr.getD (i + 1) 0) := by
    unfold extract_diagonal
    exact getD_map_range _ _ _ _ hi
  have hcase : (extract_diagonal values colIndices rowPtr n).getD i 0 = FP.num 1 ∨
      ∃ q : ℚ, (extract_diagonal values colIndices rowPtr n).getD i 0 =
        FP.num q ∧ eps < |q| := by
    rw [hd]
    rcases hfind : (List.range' (rowPtr.getD i 0)
        (rowPtr.getD (i + 1) 0 - rowPtr.getD i 0)).find?
        (fun j => colIndices.getD j 0 == i) with _ | j
    · rw [extractDiagRow_eq_none values colIndices i _ _ hfind]
      exact Or.inl rfl
    · rw [extractDiagRow_eq_some values colIndices i _ _ j hfind]
      by_cases hv : FP.flt (FP.num eps) (FP.fabs (values.getD j 0)) = true
      · rw [if_pos hv]
        rcases hval : values.getD j 0 with q | _
        · refine Or.inr ⟨q, rfl, ?_⟩
          rw [hval] at hv
          simp only [FP.fabs, FP.flt] at hv
          exact of_decide_eq_true hv
        · rw [hval, FP.fabs_nan, FP.flt_nan_right] at hv
          cases hv
      · rw [if_neg hv]
        exact Or.inl rfl
  refine ⟨hcase, ?_, ?_⟩
  · rcases hcase with h1 | ⟨q, hq, habs⟩
    · rw [h1]
      intro h
      exact one_ne_zero (FP.num.inj h)
    · rw [hq]
      intro h
      have hq0 : q = 0 := FP.num.inj h
      rw [hq0] at habs
      have : ¬ (eps < |(0 : ℚ)|) := by norm_num [eps]
      exact this habs
  · intro r hir
    unfold apply_jacobi
    rw [getD_map_range _ _ _ _ hir]
    rfl

/-- Witness for `extract_diagonal_nonzero` on the fixed 2×2 matrix at
row 0. -/
theorem extract_diagonal_nonzero_witness :
    ((extract_diagonal [FP.num 4, FP.num 1, FP.num 1, FP.num 3] [0, 1, 0, 1]
        [0, 2, 4] 2).getD 0 0 = FP.num 1 ∨
      ∃ q : ℚ, (extract_diagonal [FP.num 4, FP.num 1, FP.num 1, FP.num 3]
        [0, 1, 0, 1] [0, 2, 4] 2).getD 0 0 = FP.num q ∧ eps < |q|) ∧
    (extract_diagonal [FP.num 4, FP.num 1, FP.num 1, FP.num 3] [0, 1, 0, 1]
      [0, 2, 4] 2).getD 0 0 ≠ FP.num 0 ∧
    ∀ r : List FP, 0 < r.length →
      (apply_jacobi (extract_diagonal [FP.num 4, FP.num 1, FP.num 1, FP.num 3]
        [0, 1, 0, 1] [0, 2, 4] 2) r).getD 0 0 =
        FP.div (r.getD 0 0)
          ((extract_diagonal [FP.num 4, FP.num 1, FP.num 1, FP.num 3]
            [0, 1, 0, 1] [0, 2, 4] 2).getD 0 0) :=
  extract_diagonal_nonzero [FP.num 4, FP.num 1, FP.num 1, FP.num 3]
    [0, 1, 0, 1] [0, 2, 4] 2 0 (by decide)

/-- Projection equation: the solution vector after one update step. -/
theorem pcgStep_x (values : List FP) (colIndices rowPtr : List ℕ)
    (diag : List FP) (n : ℕ) (st : PcgState) :
    (pcgStep values colIndices rowPtr diag n st).x =
      updN st.x n (fun j xj => xj +
        st.rz / dot st.p (spmv values colIndices rowPtr st.p n) *
          st.p.getD j 0) := rfl

/-- Projection equation: the residual vector after one update step. -/
theorem pcgStep_r (values : List FP) (colIndices rowPtr : List ℕ)
    (diag : List FP) (n : ℕ) (st : PcgState) :
    (pcgStep values colIndices rowPtr diag n st).r =
      updN st.r n (fun j rj => rj -
        st.rz / dot st.p (spmv values colIndices rowPtr st.p n) *
          (spmv values colIndices rowPtr st.p n).getD j 0) := rfl

/-- Projection equation: the preconditioned residual after one step. -/
theorem pcgStep_z (values : List FP) (colIndices rowPtr : List ℕ)
    (diag : List FP) (n : ℕ) (st : PcgState) :
    (pcgStep values colIndices rowPtr diag n st).z =
      apply_jacobi diag (pcgStep values colIndices rowPtr diag n st).r := rfl

/-- Projection equation: the search direction after one step. -/
theorem pcgStep_p (values : List FP) (colIndices rowPtr : List ℕ)
    (diag : List FP) (n : ℕ) (st : PcgState) :
    (pcgStep values colIndices rowPtr diag n st).p =
      updN st.p n (fun j pj =>
        (pcgStep values colIndices rowPtr diag n st).z.getD j 0 +
          dot (pcgStep values colIndices rowPtr diag n st).r
              (pcgStep values colIndices rowPtr diag n st).z / st.rz * pj) := rfl

/-- Projection equation: the squared residual norm after one step. -/
theorem pcgStep_rnormSq (values : List FP) (colIndices rowPtr : List ℕ)
    (diag : List FP) (n : ℕ) (st : PcgState) :
    (pcgStep values colIndices rowPtr diag n st).rnormSq =
      dot (pcgStep values colIndices rowPtr diag n st).r
        (pcgStep values colIndices rowPtr diag n st).r := rfl

/-- NaN propagation through one PCG update step: if the search direction
has a NaN entry below `n`, then after the step the residual norm is NaN
and the new search direction again has a NaN entry below `n`. -/
theorem pcgStep_nan (values : List FP) (colIndices rowPtr : List ℕ)
    (diag : List FP) (n : ℕ) (st : PcgState) (k : ℕ) (hk : k < n)
    (hp : st.p.length = n) (hr : st.r.length = n)
    (hpk : st.p.getD k 0 = FP.nan) :
    (pcgStep values colIndices rowPtr diag n st).p.length = n ∧
    (pcgStep values colIndices rowPtr diag n st).r.length = n ∧
    (pcgStep values colIndices rowPtr diag n st).rnormSq = FP.nan ∧
    (pcgStep values colIndices rowPtr diag n st).p.getD k 0 = FP.nan := by
  have hpap : dot st.p (spmv values colIndices rowPtr st.p n) = FP.nan :=
    dot_nan_of_entry _ _ k (by rw [hp]; exact hk)
      (by rw [spmv_length]; exact hk) hpk
  have hrk : (pcgStep values colIndices rowPtr diag n st).r.getD k 0 = FP.nan := by
    rw [pcgStep_r, updN_getD _ _ _ k (by rw [hr]; exact hk), if_pos hk,
      hpap, FP.div_nan, FP.nan_mul, FP.sub_nan]
  have hrlen : (pcgStep values colIndices rowPtr diag n st).r.length = n := by
    rw [pcgStep_r, updN_length, hr]
  have hrnan : dot (pcgStep values colIndices rowPtr diag n st).r
      (pcgStep values colIndices rowPtr diag n st).r = FP.nan :=
    dot_nan_of_entry _ _ k (by rw [hrlen]; exact hk)
      (by rw [hrlen]; exact hk) hrk
  have hzk : (pcgStep values colIndices rowPtr diag n st).z.getD k 0 = FP.nan := by
    rw [pcgStep_z]
    unfold apply_jacobi
    rw [getD_map_range _ _ _ _ (by rw [hrlen]; exact hk), hrk, FP.nan_div]
  refine ⟨?_, hrlen, ?_, ?_⟩
  · rw [pcgStep_p, updN_length, hp]
  · rw [pcgStep_rnormSq]
    exact hrnan
  · rw [pcgStep_p, updN_getD _ _ _ k (by rw [hp]; exact hk), if_pos hk,
      hzk, FP.nan_add]

/-- NaN propagation through the whole loop: a NaN entry in the search
direction (with NaN residual norm) makes both early-exit tests false
forever, so the loop consumes all its fuel and returns a NaN residual
norm. -/
theorem pcgLoop_nan (values : List FP) (colIndices rowPtr : List ℕ)
    (diag : List FP) (tol bnormSq : FP) (n : ℕ) :
    ∀ (fuel : ℕ) (st : PcgState) (i : ℕ),
      st.p.length = n → st.r.length = n → st.rnormSq = FP.nan →
      (∃ k, k < n ∧ st.p.getD k 0 = FP.nan) →
      (pcgLoop values colIndices rowPtr diag tol bnormSq n st i fuel).2.1 =
        i + fuel ∧
      (pcgLoop values colIndices rowPtr diag tol bnormSq n st i fuel).2.2 =
        FP.nan := by
  intro fuel
  induction fuel with
  | zero =>
      intro st i hp hr hrn _
      simp [pcgLoop, hrn]
  | succ f ih =>
      intro st i hp hr hrn hex
      obtain ⟨k, hk, hpk⟩ := hex
      obtain ⟨hp2, hr2, hrn2, hpk2⟩ :=
        pcgStep_nan values colIndices rowPtr diag n st k hk hp hr hpk
      have hpap : dot st.p (spmv values colIndices rowPtr st.p n) = FP.nan :=
        dot_nan_of_entry _ _ k (by rw [hp]; exact hk)
          (by rw [spmv_length]; exact hk) hpk
      have hcond1 : ¬ (FP.flt (FP.fabs (dot st.p
          (spmv values colIndices rowPtr st.p n))) (FP.num eps) = true) := by
        rw [hpap, FP.fabs_nan, FP.flt_nan_left]
        simp
      have hcond2 : ¬ (convTest
          (pcgStep values colIndices rowPtr diag n st).rnormSq tol bnormSq =
            true) := by
        rw [hrn2, convTest_nan_left]
        simp
      have hstep : pcgLoop values colIndices rowPtr diag tol bnormSq n st i
          (f + 1) =
          pcgLoop values colIndices rowPtr diag tol bnormSq n
            (pcgStep values colIndices rowPtr diag n st) (i + 1) f := by
        simp only [pcgLoop]
        rw [if_neg hcond1, if_neg hcond2]
      rw [hstep]
      obtain ⟨ha, hb⟩ := ih (pcgStep values colIndices rowPtr diag n st) (i + 1)
        hp2 hr2 hrn2 ⟨k, hk, hpk2⟩
      exact ⟨by rw [ha]; omega, hb⟩

/-- C8: a NaN in the initial residual poisons the residual norm and both
early-termination tests (breakdown and convergence compare false against
NaN), so `solve_pcg` runs the loop to exactly `max_iter` iterations and
reports a NaN (squared) residual. -/
theorem solve_pcg_nan_runs_to_max_iter (values : List FP)
    (colIndices rowPtr : List ℕ) (b x0 : List FP) (tol : FP) (maxIter : ℕ)
    (h : FP.nan ∈ initResidual values colIndices rowPtr b x0 b.length) :
    (solve_pcg values colIndices rowPtr b x0 tol maxIter).iterations =
      maxIter ∧
    (solve_pcg values colIndices rowPtr b x0 tol maxIter).residualSq =
      FP.nan := by
  set n := b.length with hn
  set diag := extract_diagonal values colIndices rowPtr n with hdiag
  set r := initResidual values colIndices rowPtr b x0 n with hr
  set bn := dot b b with hbn
  set z := apply_jacobi diag r with hz
  have hs : solve_pcg values colIndices rowPtr b x0 tol maxIter =
      if convTest (dot r r) tol bn then
        { solution := x0, iterations := 0, residualSq := dot r r }
      else
        { solution := (pcgLoop values colIndices rowPtr diag tol bn n
            ⟨x0, r, z, z, dot r z, dot r r⟩ 0 maxIter).1,
          iterations := (pcgLoop values colIndices rowPtr diag tol bn n
            ⟨x0, r, z, z, dot r z, dot r r⟩ 0 maxIter).2.1,
          residualSq := (pcgLoop values colIndices rowPtr diag tol bn n
            ⟨x0, r, z, z, dot r z, dot r r⟩ 0 maxIter).2.2 } := rfl
  obtain ⟨k, hkr, hgk⟩ : ∃ k, k < r.length ∧ r.getD k 0 = FP.nan := by
    obtain ⟨k, hlt, hget⟩ := List.mem_iff_getElem.mp h
    exact ⟨k, hlt, by rw [List.getD_eq_getElem _ _ hlt, hget]⟩
  have hrlen : r.length = n := by
    rw [hr]
    exact initResidual_length values colIndices rowPtr b x0 n
  have hk : k < n := by omega
  have hdotrr : dot r r = FP.nan := dot_nan_of_entry _ _ k hkr hkr hgk
  have hcond : ¬ (convTest (dot r r) tol bn = true) := by
    rw [hdotrr, convTest_nan_left]
    simp
  have hzlen : z.length = n := by
    rw [hz, apply_jacobi_length, hrlen]
  have hzk : z.getD k 0 = FP.nan := by
    rw [hz]
    unfold apply_jacobi
    rw [getD_map_range _ _ _ _ hkr, hgk, FP.nan_div]
  obtain ⟨ha, hb⟩ := pcgLoop_nan values colIndices rowPtr diag tol bn n
    maxIter ⟨x0, r, z, z, dot r z, dot r r⟩ 0 hzlen hrlen hdotrr ⟨k, hk, hzk⟩
  rw [hs, if_neg hcond]
  exact ⟨by simpa using ha, hb⟩

/-- Witness for `solve_pcg_nan_runs_to_max_iter`: `b = [NaN]` gives a NaN
initial residual, and the solve runs all 3 allowed iterations. -/
theorem solve_pcg_nan_witness :
    FP.nan ∈ initResidual [FP.num 0] [0] [0, 1] [FP.nan] [FP.num 0] 1 ∧
    (solve_pcg [FP.num 0] [0] [0, 1] [FP.nan] [FP.num 0]
      (FP.num (1 / 10)) 3).iterations = 3 ∧
    (solve_pcg [FP.num 0] [0] [0, 1] [FP.nan] [FP.num 0]
      (FP.num (1 / 10)) 3).residualSq = FP.nan :=
  ⟨by with_unfolding_all decide,
   (solve_pcg_nan_runs_to_max_iter [FP.num 0] [0] [0, 1] [FP.nan] [FP.num 0]
     (FP.num (1 / 10)) 3 (by with_unfolding_all decide)).1,
   (solve_pcg_nan_runs_to_max_iter [FP.num 0] [0] [0, 1] [FP.nan] [FP.num 0]
     (FP.num (1 / 10)) 3 (by with_unfolding_all decide)).2⟩

/-- Frame property of the loop on solution entries at indices `≥ n`: the
loop only ever writes `x[j]` for `j < n`, so the length and the tail of
the solution vector are those of the state it started from. -/
theorem pcgLoop_frame (values : List FP) (colIndices rowPtr : List ℕ)
    (diag : List FP) (tol bnormSq : FP) (n : ℕ) :
    ∀ (fuel : ℕ) (st : PcgState) (i : ℕ),
      (pcgLoop values colIndices rowPtr diag tol bnormSq n st i fuel).1.length =
        st.x.length ∧
      ∀ k, n ≤ k →
        (pcgLoop values colIndices rowPtr diag tol bnormSq n st i fuel).1.getD
          k 0 = st.x.getD k 0 := by
  intro fuel
  induction fuel with
  | zero =>
      intro st i
      exact ⟨rfl, fun k _ => rfl⟩
  | succ f ih =>
      intro st i
      simp only [pcgLoop]
      split_ifs with h1 h2
      · exact ⟨rfl, fun k _ => rfl⟩
      · constructor
        · show (pcgStep values colIndices rowPtr diag n st).x.length =
            st.x.length
          rw [pcgStep_x, updN_length]
        · intro k hk
          show (pcgStep values colIndices rowPtr diag n st).x.getD k 0 =
            st.x.getD k 0
          rw [pcgStep_x, updN_getD_ge _ _ _ _ hk]
      · obtain ⟨ha, hb⟩ := ih (pcgStep values colIndices rowPtr diag n st) (i + 1)
        constructor
        · rw [ha, pcgStep_x, updN_length]
        · intro k hk
          rw [hb k hk, pcgStep_x, updN_getD_ge _ _ _ _ hk]

/-- C10: the solution returned by `solve_pcg` has the length of `x0` (not
of `b`): the system dimension `n` is `b.len()`, the solution starts as a
copy of `x0`, and the loop writes only indices `< n`, so any entries of
`x0` at indices `n` and beyond are returned unchanged. -/
theorem solve_pcg_solution_length (values : List FP)
    (colIndices rowPtr : List ℕ) (b x0 : List FP) (tol : FP) (maxIter : ℕ) :
    (solve_pcg values colIndices rowPtr b x0 tol maxIter).solution.length =
      x0.length ∧
    ∀ k, b.length ≤ k →
      (solve_pcg values colIndices rowPtr b x0 tol maxIter).solution.getD
        k 0 = x0.getD k 0 := by
  set n := b.length with hn
  set diag := extract_diagonal values colIndices rowPtr n with hdiag
  set r := initResidual values colIndices rowPtr b x0 n with hr
  set bn := dot b b with hbn
  set z := apply_jacobi diag r with hz
  have hs : solve_pcg values colIndices rowPtr b x0 tol maxIter =
      if convTest (dot r r) tol bn then
        { solution := x0, iterations := 0, residualSq := dot r r }
      else
        { solution := (pcgLoop values colIndices rowPtr diag tol bn n
            ⟨x0, r, z, z, dot r z, dot r r⟩ 0 maxIter).1,
          iterations := (pcgLoop values colIndices rowPtr diag tol bn n
            ⟨x0, r, z, z, dot r z, dot r r⟩ 0 maxIter).2.1,
          residualSq := (pcgLoop values colIndices rowPtr diag tol bn n
            ⟨x0, r, z, z, dot r z, dot r r⟩ 0 maxIter).2.2 } := rfl
  rw [hs]
  by_cases h : convTest (dot r r) tol bn = true
  · simp [h]
  · simp only [h, if_false, Bool.false_eq_true]
    obtain ⟨ha, hb⟩ := pcgLoop_frame values colIndices rowPtr diag tol bn n
      maxIter ⟨x0, r, z, z, dot r z, dot r r⟩ 0
    exact ⟨ha, fun k hk => hb k hk⟩

/-- Witness for `solve_pcg_solution_length`: `x0` longer than `b`; the
returned solution has `x0`'s length, and the extra entry is returned
unchanged. -/
theorem solve_pcg_solution_length_witness :
    (solve_pcg [FP.num 1] [0] [0, 1] [FP.num 1] [FP.num 0, FP.num 5]
      (FP.num (1 / 2)) 3).solution.length = 2 ∧
    (solve_pcg [FP.num 1] [0] [0, 1] [FP.num 1] [FP.num 0, FP.num 5]
      (FP.num (1 / 2)) 3).solution.getD 1 0 = FP.num 5 :=
  ⟨(solve_pcg_solution_length [FP.num 1] [0] [0, 1] [FP.num 1]
      [FP.num 0, FP.num 5] (FP.num (1 / 2)) 3).1,
   (solve_pcg_solution_length [FP.num 1] [0] [0, 1] [FP.num 1]
      [FP.num 0, FP.num 5] (FP.num (1 / 2)) 3).2 1 (by decide)⟩
